import Mathlib

/-!
# CodeSense: verification of the ingestion / review-pipeline specification

Shallow embedding of the CodeSense repository's core: webhook ingestion with
deduplication, the review-job lifecycle, the tenant-scoped query gateway, and
the frontend pieces present under `src/frontend` and `src/unnamed` (the API
client's response interceptor, the events page's pagination state, and the
review-detail page's partition of findings into static-analysis and AI groups).

The repository's backend sources (the FastAPI app: `app/webhook.py`,
`app/api/events.py`, `app/api/reviews.py`, `app/repo.py`, the worker) are not
present among the repository files; only their documentation and their
frontend callers are.  Definitions for those parts are therefore modelled
from the specification's words and are marked `Modelled from the spec:` in
their doc comments.  The frontend definitions are translated directly from
the TypeScript sources.
-/

namespace CodeSense

/-! ## Backend data model (modelled from the spec, §3) -/

/-- Modelled from the spec: a registered Repository (backend `repositories`
table is absent from the files).  Belongs to one tenant, holds an opaque
webhook credential (a byte list) and an `active` flag. -/
structure Repository where
  id : Nat
  tenant_id : Nat
  full_name : String
  webhook_credential : List Nat
  active : Bool
deriving DecidableEq

/-- Modelled from the spec: an Event, the immutable record of one webhook
delivery (backend `events` table is absent from the files). -/
structure Event where
  id : Nat
  tenant_id : Nat
  repository_id : Nat
  delivery_id : String
  event_type : String
deriving DecidableEq

/-- Status of a Review: `queued → running → done | failed` (spec §3, §4.4). -/
inductive ReviewStatus where
  | queued
  | running
  | done
  | failed
deriving DecidableEq

/-- A status from which a Review never moves again (spec §3: terminal once
`done`/`failed`). -/
def ReviewStatus.terminal : ReviewStatus → Bool
  | .done => true
  | .failed => true
  | _ => false

/-- Modelled from the spec: a Review, one review attempt for an Event
(backend `reviews` table is absent from the files). -/
structure Review where
  id : Nat
  event_id : Nat
  status : ReviewStatus
  started_at : Option Nat
  finished_at : Option Nat
deriving DecidableEq

/-- Modelled from the spec: a Finding produced by an analyzer for a Review
(backend `findings` table is absent from the files). -/
structure Finding where
  id : Nat
  review_id : Nat
  severity : String
  title : String
  tool : String
deriving DecidableEq

/-- Modelled from the spec: the shared relational store (spec §6 storage
contract), holding events, reviews, findings, the durable job queue (review
ids), and the next fresh row ids. -/
structure Store where
  events : List Event
  reviews : List Review
  findings : List Finding
  queue : List Nat
  nextEventId : Nat
  nextReviewId : Nat
deriving DecidableEq

/-- Well-formedness of a store: every row id is below the corresponding
fresh-id counter, and every review references an already-allocated event id. -/
def Store.wf (s : Store) : Prop :=
  (∀ e ∈ s.events, e.id < s.nextEventId) ∧
  (∀ r ∈ s.reviews, r.id < s.nextReviewId ∧ r.event_id < s.nextEventId)

/-! ## Constant-time comparison (modelled from the spec, §4.1, §9) -/

/-- Modelled from the spec: the core loop of a constant-time digest
comparison (spec §4.2 step 1 and §9: "constant-time equality, not ordinary
string comparison").  It walks every byte pair, accumulating the bitwise OR
of the byte XORs — never stopping early — and also returns the number of
byte operations it performed, which is the embedding's cost model. -/
def ctScan : List (Nat × Nat) → Nat → Nat × Nat
  | [], acc => (acc, 0)
  | p :: ps, acc =>
    let rest := ctScan ps (acc ||| (p.1 ^^^ p.2))
    (rest.1, rest.2 + 1)

/-- Modelled from the spec: constant-time equality of two byte lists —
lengths must agree and the accumulated OR of XORs must be zero. -/
def ctEq (a b : List Nat) : Bool :=
  (a.length == b.length) && ((ctScan (a.zip b) 0).1 == 0)

/-- The number of byte operations `ctEq` performs on the given inputs. -/
def ctEqSteps (a b : List Nat) : Nat :=
  (ctScan (a.zip b) 0).2

/-- Modelled from the spec: `resolveByCredential` scans the repository rows,
comparing the supplied credential with each stored credential in constant
time; the second component is the total number of byte operations spent. -/
def resolveScan (cred : List Nat) : List Repository → Option Repository × Nat
  | [] => (none, 0)
  | r :: rs =>
    if ctEq r.webhook_credential cred then
      (some r, ctEqSteps r.webhook_credential cred)
    else
      let rest := resolveScan cred rs
      (rest.1, ctEqSteps r.webhook_credential cred + rest.2)

/-- Modelled from the spec: `resolveByCredential(credential) -> Repository |
NotFound` (spec §4.1). -/
def resolveByCredential (repos : List Repository) (cred : List Nat) : Option Repository :=
  (resolveScan cred repos).1

/-- The total number of byte operations `resolveByCredential` spends. -/
def resolveSteps (repos : List Repository) (cred : List Nat) : Nat :=
  (resolveScan cred repos).2

/-! ## Webhook ingestion (modelled from the spec, §4.2) -/

/-- Outcome of one webhook delivery at the Ingestor boundary (spec §7). -/
inductive IngestResult where
  | accepted (event_id : Nat)
  | signatureInvalid
  | repoNotFound
deriving DecidableEq

/-- The event row, if any, already recorded for `(repository_id, delivery_id)`. -/
def findEvent (events : List Event) (rid : Nat) (did : String) : Option Event :=
  events.find? (fun e => e.repository_id == rid && e.delivery_id == did)

/-- Modelled from the spec: webhook ingestion for the scoped endpoint
`POST /webhook/\x7bcredential\x7d` (spec §4.2): resolve the repository by
credential (inactive or unknown → reject), verify the HMAC over the raw body
with the repository's shared secret by constant-time comparison (mismatch →
`SignatureInvalid`, no state change), deduplicate on
`(repository_id, delivery_id)` (hit → return the existing event id, no side
effects), otherwise persist the Event, create the initial Review in `queued`,
and enqueue exactly one job. -/
def processWebhook (mac : List Nat → List Nat → List Nat) (repos : List Repository)
    (cred : List Nat) (did : String) (etype : String) (body sig : List Nat)
    (s : Store) : IngestResult × Store :=
  match resolveByCredential repos cred with
  | none => (.repoNotFound, s)
  | some repo =>
    if repo.active then
      if ctEq sig (mac repo.webhook_credential body) then
        match findEvent s.events repo.id did with
        | some e => (.accepted e.id, s)
        | none =>
          let ev : Event :=
            { id := s.nextEventId, tenant_id := repo.tenant_id,
              repository_id := repo.id, delivery_id := did, event_type := etype }
          let rv : Review :=
            { id := s.nextReviewId, event_id := s.nextEventId,
              status := .queued, started_at := none, finished_at := none }
          (.accepted s.nextEventId,
            { s with
                events := ev :: s.events,
                reviews := rv :: s.reviews,
                queue := s.queue ++ [s.nextReviewId],
                nextEventId := s.nextEventId + 1,
                nextReviewId := s.nextReviewId + 1 })
      else (.signatureInvalid, s)
    else (.repoNotFound, s)

/-- The same delivery submitted `n` times in a row (webhook retry replay). -/
def submitN (mac : List Nat → List Nat → List Nat) (repos : List Repository)
    (cred : List Nat) (did : String) (etype : String) (body sig : List Nat) :
    Nat → Store → Store
  | 0, s => s
  | n + 1, s => submitN mac repos cred did etype body sig n
      (processWebhook mac repos cred did etype body sig s).2

/-- How many event rows carry the key `(repository_id, delivery_id)`. -/
def countEvents (s : Store) (rid : Nat) (did : String) : Nat :=
  (s.events.filter (fun e => e.repository_id == rid && e.delivery_id == did)).length

/-- How many review rows reference the given event id. -/
def countReviewsFor (s : Store) (eid : Nat) : Nat :=
  (s.reviews.filter (fun r => r.event_id == eid)).length

/-! ## Review lifecycle (modelled from the spec, §4.4, §5) -/

/-- The first review row with the given id. -/
def findReview (reviews : List Review) (rid : Nat) : Option Review :=
  reviews.find? (fun r => r.id == rid)

/-- Modelled from the spec: the worker's claim — a single atomic conditional
update keyed on prior state = `queued` (spec §4.4, §5): the row moves to
`running` with `started_at` recorded exactly when a `queued` row with that id
exists; otherwise the claim reports a conflict and changes nothing. -/
def claimReview (s : Store) (rid now : Nat) : Bool × Store :=
  if s.reviews.any (fun x => decide (x.id = rid ∧ x.status = ReviewStatus.queued)) then
    (true,
      { s with
          reviews := s.reviews.map (fun x =>
            if x.id = rid ∧ x.status = ReviewStatus.queued then
              { x with status := .running, started_at := some now }
            else x) })
  else (false, s)

/-- Modelled from the spec: finalization — a conditional update keyed on
prior state = `running`, moving the row to `done` on success and `failed` on
analyzer failure, recording `finished_at` (spec §4.4). -/
def finalizeReview (s : Store) (rid : Nat) (ok : Bool) (now : Nat) : Store :=
  { s with
      reviews := s.reviews.map (fun x =>
        if x.id = rid ∧ x.status = ReviewStatus.running then
          { x with status := if ok then .done else .failed, finished_at := some now }
        else x) }

/-- Modelled from the spec: `enqueueManualReview(tenant_id, event_id)` (spec
§4.5): authorizes ownership, creates a fresh `queued` Review row and enqueues
a job; a terminal Review is never mutated by a re-run. -/
def enqueueManualReview (s : Store) (tenant eid : Nat) : Option Nat × Store :=
  match s.events.find? (fun e => e.id == eid) with
  | none => (none, s)
  | some e =>
    if e.tenant_id = tenant then
      let rv : Review :=
        { id := s.nextReviewId, event_id := eid,
          status := .queued, started_at := none, finished_at := none }
      (some s.nextReviewId,
        { s with
            reviews := rv :: s.reviews,
            queue := s.queue ++ [s.nextReviewId],
            nextReviewId := s.nextReviewId + 1 })
    else (none, s)

/-- Every operation of the system that can touch review rows. -/
inductive Op where
  | ingest (mac : List Nat → List Nat → List Nat) (repos : List Repository)
      (cred : List Nat) (did etype : String) (body sig : List Nat)
  | claimOp (rid now : Nat)
  | finalizeOp (rid : Nat) (ok : Bool) (now : Nat)
  | manualOp (tenant eid : Nat)

/-- The store after one operation. -/
def applyOp (op : Op) (s : Store) : Store :=
  match op with
  | .ingest mac repos cred did etype body sig =>
      (processWebhook mac repos cred did etype body sig s).2
  | .claimOp rid now => (claimReview s rid now).2
  | .finalizeOp rid ok now => finalizeReview s rid ok now
  | .manualOp tenant eid => (enqueueManualReview s tenant eid).2

/-- The legal review status transitions: stay put, `queued → running`, or
`running → done | failed` (spec §4.4, §8). -/
def legalStep (a b : ReviewStatus) : Prop :=
  a = b ∨ (a = .queued ∧ b = .running) ∨
    (a = .running ∧ (b = .done ∨ b = .failed))

/-- A sequence of claim attempts on one review id, serialized by the store's
atomic conditional update (spec §5); returns each attempt's outcome flag and
the final store. -/
def runClaims (rid : Nat) : List Nat → Store → List Bool × Store
  | [], s => ([], s)
  | t :: ts, s =>
    let first := claimReview s rid t
    let rest := runClaims rid ts first.2
    (first.1 :: rest.1, rest.2)

/-! ## Query gateway (modelled from the spec, §4.5) -/

/-- The gateway's error shapes.  `forbidden` exists in the taxonomy so that
the no-existence-leakage property (`notFound`, never `forbidden`, for another
tenant's resource) is contentful. -/
inductive ApiError where
  | notFound
  | forbidden
deriving DecidableEq

/-- The paginated events response (mirrors `PaginatedEventsResponse` of the
frontend API client). -/
structure PaginatedEvents where
  events : List Event
  total : Nat
  page : Nat
  page_size : Nat
  has_more : Bool
deriving DecidableEq

/-- Newest-first ordering of events by id. -/
def newestFirst (a b : Event) : Prop := b.id ≤ a.id

instance : DecidableRel newestFirst := fun a b => Nat.decLe b.id a.id

/-- Modelled from the spec: `listEvents(tenant_id, page, pageSize)` — filter
to the tenant's events, order newest-first by id, slice the requested page,
and compute `has_more` from `total > page * pageSize` (spec §4.5). -/
def listEvents (s : Store) (tenant page pageSize : Nat) : PaginatedEvents :=
  let matching := s.events.filter (fun e => e.tenant_id == tenant)
  let sorted := List.insertionSort newestFirst matching
  { events := (sorted.drop ((page - 1) * pageSize)).take pageSize,
    total := matching.length,
    page := page,
    page_size := pageSize,
    has_more := decide (matching.length > page * pageSize) }

/-- Modelled from the spec: `getEvent(tenant_id, event_id)` — the event and
its reviews; `notFound` (never `forbidden`) when the event is missing or
belongs to another tenant (spec §4.5, §9). -/
def getEvent (s : Store) (tenant eid : Nat) : Except ApiError (Event × List Review) :=
  match s.events.find? (fun e => e.id == eid) with
  | none => .error .notFound
  | some e =>
    if e.tenant_id = tenant then
      .ok (e, s.reviews.filter (fun r => r.event_id == eid))
    else .error .notFound

/-- Modelled from the spec: `getReview(tenant_id, review_id)` — the review,
its event and its findings, under the same isolation rule (spec §4.5). -/
def getReview (s : Store) (tenant rid : Nat) :
    Except ApiError (Review × Event × List Finding) :=
  match findReview s.reviews rid with
  | none => .error .notFound
  | some r =>
    match s.events.find? (fun e => e.id == r.event_id) with
    | none => .error .notFound
    | some e =>
      if e.tenant_id = tenant then
        .ok (r, e, s.findings.filter (fun f => f.review_id == rid))
      else .error .notFound

/-! ## Frontend: finding groups (from `ReviewDetailPage.tsx`) -/

/-- `FindingResponse` of `frontend/src/lib/api.ts`. -/
structure FindingResponse where
  id : Nat
  review_id : Nat
  file_path : Option String
  severity : String
  title : String
  rationale : Option String
  start_line : Option Nat
  end_line : Option Nat
  patch : Option String
  tool : Option String
deriving DecidableEq

/-- `ReviewResponse` of `frontend/src/lib/api.ts`. -/
structure ReviewResponse where
  id : Nat
  event_id : Nat
  status : String
  started_at : Option String
  finished_at : Option String
  summary_json : Option String
deriving DecidableEq

/-- `EventResponse` of `frontend/src/lib/api.ts`. -/
structure EventResponse where
  id : Nat
  delivery_id : Option String
  event_type : String
  repo : Option String
  ref : Option String
  after_sha : Option String
  created_at : String
  latest_review_status : Option String
  latest_review_id : Option Nat
deriving DecidableEq

/-- `ReviewDetailResponse` of `frontend/src/lib/api.ts`; the
`findings_by_file` record is embedded as an association list. -/
structure ReviewDetailResponse where
  review : ReviewResponse
  event : EventResponse
  findings : List FindingResponse
  findings_by_file : List (String × List FindingResponse)
deriving DecidableEq

/-- `ReviewDetailPage.tsx` line 88 / 166: the static-analysis group is
`findings.filter((f) => f.tool !== 'ai')`, so a `null` tool lands here. -/
def staticFindings (fs : List FindingResponse) : List FindingResponse :=
  fs.filter (fun f => !(f.tool == some "ai"))

/-- `ReviewDetailPage.tsx` line 89 / 167: the AI group is
`findings.filter((f) => f.tool === 'ai')`. -/
def aiFindings (fs : List FindingResponse) : List FindingResponse :=
  fs.filter (fun f => f.tool == some "ai")

/-! ## Frontend: API client response interceptor (from `lib/api.ts`) -/

/-- The browser state the interceptor touches: the `localStorage` key-value
pairs and `window.location.href`. -/
structure BrowserState where
  localStorage : List (String × String)
  locationHref : String
deriving DecidableEq

/-- `localStorage.removeItem(key)`: drops every pair under that key. -/
def removeItem (store : List (String × String)) (key : String) :
    List (String × String) :=
  store.filter (fun kv => !(kv.1 == key))

/-- What axios hands the response interceptor: a fulfilled response, or a
rejected error carrying `error.response?.status` (`none` when the request
produced no response at all). -/
inductive AxiosOutcome where
  | fulfilled (status : Nat) (body : String)
  | rejected (status : Option Nat)
deriving DecidableEq

/-- Axios's default `validateStatus`: a response resolves exactly when its
status is in `[200, 300)`; any other response rejects with the error carrying
that status. -/
def axiosDispatch (status : Nat) (body : String) : AxiosOutcome :=
  if 200 ≤ status ∧ status < 300 then .fulfilled status body
  else .rejected (some status)

/-- `apiClient.interceptors.response.use` of `lib/api.ts` lines 24-33: a
fulfilled response passes through; a rejected error whose
`error.response?.status === 401` removes `auth_token` from localStorage and
sets `window.location.href = '/login'`, and the error is re-rejected; every
other error passes through with no browser-state change. -/
def responseInterceptor (st : BrowserState) (o : AxiosOutcome) :
    AxiosOutcome × BrowserState :=
  match o with
  | .fulfilled status body => (.fulfilled status body, st)
  | .rejected status? =>
    if status? = some 401 then
      (.rejected status?,
        { localStorage := removeItem st.localStorage "auth_token",
          locationHref := "/login" })
    else (.rejected status?, st)

/-! ## Frontend: events page pagination state (from `EventsPage.tsx`) -/

/-- The two paging actions the events page offers. -/
inductive PageAction where
  | previous
  | next
deriving DecidableEq

/-- `EventsPage.tsx`: `setPage((p) => Math.max(1, p - 1))` for Previous and
`setPage((p) => p + 1)` for Next. -/
def pageStep (p : Nat) : PageAction → Nat
  | .previous => max 1 (p - 1)
  | .next => p + 1

/-- `EventsPage.tsx` line 11: `useState(1)`. -/
def initialPage : Nat := 1

/-- The page state after a sequence of clicks, starting from the initial
state. -/
def pageAfter (acts : List PageAction) : Nat :=
  acts.foldl pageStep initialPage

/-- `EventsPage.tsx` line 139: the Previous button is `disabled={page === 1}`. -/
def prevDisabled (p : Nat) : Bool := p == 1

/-! ## Concrete fixtures used by witnesses -/

/-- A registered repository of tenant 7 with credential bytes `[1, 2]`. -/
def demoRepo : Repository := ⟨1, 7, "acme/widgets", [1, 2], true⟩

/-- A keyed digest for witnesses: the key followed by the body. -/
def demoMac (key body : List Nat) : List Nat := key ++ body

/-- The empty store. -/
def demoStore : Store := ⟨[], [], [], [], 0, 0⟩

/-- A store holding one review in `queued` state. -/
def demoStoreQueued : Store := ⟨[], [⟨1, 1, .queued, none, none⟩], [], [1], 1, 2⟩

/-! ## Helper lemmas -/

theorem nat_or_eq_zero (a b : Nat) : a ||| b = 0 ↔ a = 0 ∧ b = 0 := by
  constructor
  · intro h
    constructor
    · apply Nat.eq_of_testBit_eq
      intro i
      have h2 := congrArg (fun x => Nat.testBit x i) h
      simp [Nat.testBit_or] at h2
      simp [h2.1]
    · apply Nat.eq_of_testBit_eq
      intro i
      have h2 := congrArg (fun x => Nat.testBit x i) h
      simp [Nat.testBit_or] at h2
      simp [h2.2]
  · rintro ⟨rfl, rfl⟩
    simp

theorem ctScan_steps (ps : List (Nat × Nat)) (acc : Nat) : (ctScan ps acc).2 = ps.length := by
  induction ps generalizing acc with
  | nil => rfl
  | cons p ps ih => simp [ctScan, ih]

theorem ctScan_zero_iff (ps : List (Nat × Nat)) (acc : Nat) :
    (ctScan ps acc).1 = 0 ↔ acc = 0 ∧ ∀ p ∈ ps, p.1 = p.2 := by
  induction ps generalizing acc with
  | nil => simp [ctScan]
  | cons p ps ih =>
    simp only [ctScan, ih, nat_or_eq_zero, Nat.xor_eq_zero, List.mem_cons]
    constructor
    · rintro ⟨⟨ha, hp⟩, hall⟩
      exact ⟨ha, fun q hq => hq.elim (fun h => h ▸ hp) (hall q)⟩
    · rintro ⟨ha, hall⟩
      exact ⟨⟨ha, hall p (Or.inl rfl)⟩, fun q hq => hall q (Or.inr hq)⟩

theorem zip_all_eq (a : List Nat) : ∀ b : List Nat, a.length = b.length →
    ((∀ p ∈ a.zip b, p.1 = p.2) ↔ a = b) := by
  induction a with
  | nil =>
    intro b hb
    cases b with
    | nil => simp
    | cons y ys => simp at hb
  | cons x xs ih =>
    intro b hb
    cases b with
    | nil => simp at hb
    | cons y ys =>
      simp only [List.length_cons, Nat.add_right_cancel_iff] at hb
      simp only [List.zip_cons_cons, List.mem_cons, List.cons.injEq]
      constructor
      · intro h
        refine ⟨h (x, y) (Or.inl rfl), (ih ys hb).mp fun p hp => h p (Or.inr hp)⟩
      · rintro ⟨rfl, rfl⟩
        intro p hp
        rcases hp with rfl | hp
        · rfl
        · exact (ih xs rfl).mpr rfl p hp

theorem ctEq_eq_true_iff (a b : List Nat) : ctEq a b = true ↔ a = b := by
  simp only [ctEq, Bool.and_eq_true, beq_iff_eq, ctScan_zero_iff, true_and]
  constructor
  · rintro ⟨hlen, hall⟩
    exact (zip_all_eq a b hlen).mp hall
  · rintro rfl
    exact ⟨rfl, (zip_all_eq a a rfl).mpr rfl⟩

theorem ctEqSteps_len (a b : List Nat) : ctEqSteps a b = min a.length b.length := by
  simp [ctEqSteps, ctScan_steps]

theorem resolveScan_none_steps (c c' : List Nat) (hlen : c.length = c'.length) :
    ∀ repos : List Repository, (resolveScan c repos).1 = none →
      (resolveScan c' repos).1 = none →
      (resolveScan c repos).2 = (resolveScan c' repos).2 := by
  intro repos
  induction repos with
  | nil => intro _ _; rfl
  | cons r rs ih =>
    intro h1 h2
    by_cases hc : ctEq r.webhook_credential c = true
    · simp [resolveScan, hc] at h1
    · by_cases hc' : ctEq r.webhook_credential c' = true
      · simp [resolveScan, hc'] at h2
      · simp only [resolveScan, if_neg hc, if_neg hc'] at h1 h2 ⊢
        rw [ctEqSteps_len, ctEqSteps_len, hlen, ih h1 h2]

theorem list_filter_partition {α : Type} (p : α → Bool) (l : List α) :
    (l.filter (fun a => !(p a))).length + (l.filter p).length = l.length := by
  induction l with
  | nil => rfl
  | cons a l ih =>
    cases h : p a <;> simp [List.filter, h] <;> omega

/-! ## Claim theorems -/

/-- C7: `resolveByCredential` and the webhook HMAC digest comparison are
constant-time: the number of byte operations `ctEq` spends depends only on
the operands' lengths (never on how long a matching common part is), `ctEq`
decides exact equality, and a failed credential resolution costs the same
for any two credentials of the same length. -/
theorem constant_time_credential_compare (w c c' : List Nat)
    (repos : List Repository) (hlen : c.length = c'.length) :
    ctEqSteps w c = ctEqSteps w c' ∧
    (ctEq w c = true ↔ w = c) ∧
    (resolveByCredential repos c = none → resolveByCredential repos c' = none →
      resolveSteps repos c = resolveSteps repos c') := by
  refine ⟨?_, ctEq_eq_true_iff w c, ?_⟩
  · rw [ctEqSteps_len, ctEqSteps_len, hlen]
  · intro h1 h2
    exact resolveScan_none_steps c c' hlen repos h1 h2

/-- Witness for C7 at a stored secret `[1, 2, 3]` and two same-length
credentials, one sharing a long common part with the secret and one not. -/
theorem constant_time_credential_compare_witness :
    ctEqSteps [1, 2, 3] [1, 2, 9] = ctEqSteps [1, 2, 3] [7, 8, 9] ∧
    (ctEq [1, 2, 3] [1, 2, 9] = true ↔ [1, 2, 3] = [1, 2, 9]) ∧
    (resolveByCredential [demoRepo] [1, 2, 9] = none →
      resolveByCredential [demoRepo] [7, 8, 9] = none →
      resolveSteps [demoRepo] [1, 2, 9] = resolveSteps [demoRepo] [7, 8, 9]) :=
  constant_time_credential_compare [1, 2, 3] [1, 2, 9] [7, 8, 9] [demoRepo] rfl

/-- C3: a delivery whose signature does not equal the HMAC of the raw body
under the resolved repository's shared secret is rejected with
`signatureInvalid` and the store is returned unchanged: no Event row, no
Review row, no queued job. -/
theorem signature_invalid_rejects_atomically (mac : List Nat → List Nat → List Nat)
    (repos : List Repository) (cred : List Nat) (did etype : String)
    (body sig : List Nat) (s : Store) (repo : Repository)
    (hres : resolveByCredential repos cred = some repo)
    (hact : repo.active = true)
    (hbad : sig ≠ mac repo.webhook_credential body) :
    processWebhook mac repos cred did etype body sig s = (.signatureInvalid, s) := by
  have hct : ctEq sig (mac repo.webhook_credential body) = false := by
    cases h : ctEq sig (mac repo.webhook_credential body) with
    | false => rfl
    | true => exact absurd ((ctEq_eq_true_iff _ _).mp h) hbad
  simp [processWebhook, hres, hact, hct]

/-- Witness for C3: a forged signature `[9]` on a push delivery leaves the
empty store untouched. -/
theorem signature_invalid_rejects_atomically_witness :
    processWebhook demoMac [demoRepo] [1, 2] "d1" "push" [3] [9] demoStore
      = (.signatureInvalid, demoStore) :=
  signature_invalid_rejects_atomically demoMac [demoRepo] [1, 2] "d1" "push"
    [3] [9] demoStore demoRepo rfl rfl (by decide)

/-- C8: on the review detail page the static-analysis group
(`tool !== 'ai'`) and the AI group (`tool === 'ai'`) are disjoint, together
cover every finding, their sizes add up to the total, a finding with a
`null` tool tag is classified as static analysis, and the same holds for
every per-file group. -/
theorem findings_partition_static_ai (d : ReviewDetailResponse) :
    (∀ f, f ∈ staticFindings d.findings → f ∈ aiFindings d.findings → False) ∧
    (∀ f ∈ d.findings, f ∈ staticFindings d.findings ∨ f ∈ aiFindings d.findings) ∧
    (staticFindings d.findings).length + (aiFindings d.findings).length
      = d.findings.length ∧
    (∀ f ∈ d.findings, f.tool = none →
      f ∈ staticFindings d.findings ∧ f ∉ aiFindings d.findings) ∧
    (∀ g ∈ d.findings_by_file,
      (∀ f, f ∈ staticFindings g.2 → f ∈ aiFindings g.2 → False) ∧
      (staticFindings g.2).length + (aiFindings g.2).length = g.2.length) := by
  refine ⟨?_, ?_, ?_, ?_, ?_⟩
  · intro f hs ha
    rw [staticFindings, List.mem_filter] at hs
    rw [aiFindings, List.mem_filter] at ha
    rw [ha.2] at hs
    exact absurd hs.2 (by simp)
  · intro f hf
    by_cases h : f.tool = some "ai"
    · exact Or.inr (by rw [aiFindings, List.mem_filter]; simp [hf, h])
    · exact Or.inl (by rw [staticFindings, List.mem_filter]; simp [hf, h])
  · exact list_filter_partition _ d.findings
  · intro f hf hnone
    constructor
    · rw [staticFindings, List.mem_filter]
      simp [hf, hnone]
    · intro ha
      rw [aiFindings, List.mem_filter] at ha
      rw [hnone] at ha
      exact absurd ha.2 (by simp)
  · intro g _
    constructor
    · intro f hs ha
      rw [staticFindings, List.mem_filter] at hs
      rw [aiFindings, List.mem_filter] at ha
      rw [ha.2] at hs
      exact absurd hs.2 (by simp)
    · exact list_filter_partition _ g.2

/-- C9: the API client's response interceptor always passes the outcome
through unchanged; on a 401 response it removes the `auth_token` entry from
localStorage and redirects to `/login`, and on any other status it leaves
the browser state untouched. -/
theorem interceptor_unauthorized_handling (st : BrowserState) (status : Nat)
    (body : String) :
    (responseInterceptor st (axiosDispatch status body)).1
      = axiosDispatch status body ∧
    (status = 401 →
      (∀ v, ("auth_token", v)
        ∉ (responseInterceptor st (axiosDispatch status body)).2.localStorage) ∧
      (responseInterceptor st (axiosDispatch status body)).2.locationHref
        = "/login") ∧
    (status ≠ 401 → (responseInterceptor st (axiosDispatch status body)).2 = st) := by
  by_cases h4 : status = 401
  · subst h4
    have hd : axiosDispatch 401 body = .rejected (some 401) := by
      simp [axiosDispatch]
    refine ⟨?_, ?_, ?_⟩
    · rw [hd]; simp [responseInterceptor]
    · intro _
      constructor
      · intro v hv
        rw [hd] at hv
        simp [responseInterceptor, removeItem, List.mem_filter] at hv
      · rw [hd]; simp [responseInterceptor]
    · intro h; exact absurd rfl h
  · refine ⟨?_, fun h => absurd h h4, fun _ => ?_⟩
    · by_cases h2 : 200 ≤ status ∧ status < 300
      · simp [axiosDispatch, h2, responseInterceptor]
      · simp [axiosDispatch, h2, responseInterceptor, h4]
    · by_cases h2 : 200 ≤ status ∧ status < 300
      · simp [axiosDispatch, h2, responseInterceptor]
      · simp [axiosDispatch, h2, responseInterceptor, h4]

/-- C10: the events page's page state starts at 1, Previous is disabled on
page 1 and clamps with `max 1 (p - 1)`, and after any sequence of clicks the
page number — the value every `getEvents` call is issued with — is at least
1. -/
theorem events_page_min_page_one :
    initialPage = 1 ∧ prevDisabled initialPage = true ∧
    pageStep 1 .previous = 1 ∧
    ∀ acts : List PageAction, 1 ≤ pageAfter acts := by
  refine ⟨rfl, rfl, rfl, ?_⟩
  have key : ∀ (acts : List PageAction) (p : Nat), 1 ≤ p → 1 ≤ acts.foldl pageStep p := by
    intro acts
    induction acts with
    | nil => intro p hp; simpa using hp
    | cons a acts ih =>
      intro p hp
      refine ih (pageStep p a) ?_
      cases a
      · exact Nat.le_max_left 1 (p - 1)
      · exact Nat.le_add_left 1 p
  intro acts
  exact key acts initialPage (Nat.le_refl 1)

/-- C6: `listEvents` orders the returned page newest-first by id (every
earlier entry has an id at least as large as every later one), reports the
tenant's total matching event count, echoes the requested page and page
size, and computes `has_more` as `total > page * pageSize`. -/
theorem listEvents_pagination_contract (s : Store) (tenant page pageSize : Nat) :
    (listEvents s tenant page pageSize).events.Pairwise newestFirst ∧
    (listEvents s tenant page pageSize).has_more
      = decide ((listEvents s tenant page pageSize).total > page * pageSize) ∧
    (listEvents s tenant page pageSize).total
      = (s.events.filter (fun e => e.tenant_id == tenant)).length ∧
    (listEvents s tenant page pageSize).page = page ∧
    (listEvents s tenant page pageSize).page_size = pageSize := by
  refine ⟨?_, rfl, rfl, rfl, rfl⟩
  haveI : IsTotal Event newestFirst := ⟨fun a b => Nat.le_total b.id a.id⟩
  haveI : IsTrans Event newestFirst := ⟨fun _ _ _ h1 h2 => Nat.le_trans h2 h1⟩
  have hs : List.Sorted newestFirst (List.insertionSort newestFirst
      (s.events.filter (fun e => e.tenant_id == tenant))) :=
    List.sorted_insertionSort newestFirst _
  exact List.Pairwise.sublist
    ((List.take_sublist _ _).trans (List.drop_sublist _ _)) hs

/-- C2: every query-gateway read issued as tenant `a` returns only rows of
`a`'s ownership tree; a `getEvent`/`getReview` on a resource that is missing
or owned by another tenant answers `notFound` in both cases — and the
`forbidden` shape is never produced, so the two cases are indistinguishable. -/
theorem tenant_isolation_no_leakage (s : Store) (a : Nat) :
    (∀ page pageSize e, e ∈ (listEvents s a page pageSize).events →
      e.tenant_id = a) ∧
    (∀ eid e rs, getEvent s a eid = .ok (e, rs) →
      e.tenant_id = a ∧ e.id = eid ∧ ∀ r ∈ rs, r.event_id = eid) ∧
    (∀ rid r e fs, getReview s a rid = .ok (r, e, fs) →
      e.tenant_id = a ∧ r.id = rid ∧ e.id = r.event_id ∧
        ∀ f ∈ fs, f.review_id = rid) ∧
    (∀ eid e, s.events.find? (fun x => x.id == eid) = some e →
      e.tenant_id ≠ a → getEvent s a eid = .error .notFound) ∧
    (∀ eid, s.events.find? (fun x => x.id == eid) = none →
      getEvent s a eid = .error .notFound) ∧
    (∀ eid, getEvent s a eid ≠ .error .forbidden) ∧
    (∀ rid, getReview s a rid ≠ .error .forbidden) := by
  refine ⟨?_, ?_, ?_, ?_, ?_, ?_, ?_⟩
  · intro page pageSize e he
    have h1 : e ∈ List.insertionSort newestFirst
        (s.events.filter (fun x => x.tenant_id == a)) :=
      (((List.take_sublist _ _).trans (List.drop_sublist _ _)).subset) he
    have h2 : e ∈ s.events.filter (fun x => x.tenant_id == a) :=
      (List.perm_insertionSort newestFirst _).mem_iff.mp h1
    simpa using (List.mem_filter.mp h2).2
  · intro eid e rs h
    rcases hf : s.events.find? (fun x => x.id == eid) with _ | e0
    · simp [getEvent, hf] at h
    · simp only [getEvent, hf] at h
      by_cases ht : e0.tenant_id = a
      · rw [if_pos ht] at h
        simp only [Except.ok.injEq, Prod.mk.injEq] at h
        obtain ⟨rfl, rfl⟩ := h
        refine ⟨ht, ?_, ?_⟩
        · simpa using List.find?_some hf
        · intro r hr
          simpa using (List.mem_filter.mp hr).2
      · rw [if_neg ht] at h
        simp at h
  · intro rid r e fs h
    rcases hf : findReview s.reviews rid with _ | r0
    · simp [getReview, hf] at h
    · rcases he : s.events.find? (fun x => x.id == r0.event_id) with _ | e0
      · simp [getReview, hf, he] at h
      · simp only [getReview, hf, he] at h
        by_cases ht : e0.tenant_id = a
        · rw [if_pos ht] at h
          simp only [Except.ok.injEq, Prod.mk.injEq] at h
          obtain ⟨rfl, rfl, rfl⟩ := h
          have hid : r0.id = rid := by
            simpa [findReview] using List.find?_some hf
          refine ⟨ht, hid, ?_, ?_⟩
          · simpa using List.find?_some he
          · intro f hf2
            simpa using (List.mem_filter.mp hf2).2
        · rw [if_neg ht] at h
          simp at h
  · intro eid e hf hne
    simp [getEvent, hf, hne]
  · intro eid hf
    simp [getEvent, hf]
  · intro eid h
    rcases hf : s.events.find? (fun x => x.id == eid) with _ | e0
    · simp [getEvent, hf] at h
    · simp only [getEvent, hf] at h
      by_cases ht : e0.tenant_id = a
      · rw [if_pos ht] at h
        simp at h
      · rw [if_neg ht] at h
        simp at h
  · intro rid h
    rcases hf : findReview s.reviews rid with _ | r0
    · simp [getReview, hf] at h
    · rcases he : s.events.find? (fun x => x.id == r0.event_id) with _ | e0
      · simp [getReview, hf, he] at h
      · simp only [getReview, hf, he] at h
        by_cases ht : e0.tenant_id = a
        · rw [if_pos ht] at h
          simp at h
        · rw [if_neg ht] at h
          simp at h

theorem find?_map_id_preserving (f : Review → Review)
    (hid : ∀ x, (f x).id = x.id) (l : List Review) (rid : Nat) :
    findReview (l.map f) rid = (findReview l rid).map f := by
  induction l with
  | nil => rfl
  | cons x xs ih =>
    simp only [findReview, List.map_cons, List.find?] at *
    rw [hid x]
    cases h : (x.id == rid) <;> simp [h, ih]

theorem claimReview_noClaimable (s : Store) (rid now : Nat)
    (h : ∀ x ∈ s.reviews, ¬(x.id = rid ∧ x.status = ReviewStatus.queued)) :
    claimReview s rid now = (false, s) := by
  have hany : s.reviews.any
      (fun x => decide (x.id = rid ∧ x.status = ReviewStatus.queued)) = false := by
    simp only [List.any_eq_false, decide_eq_true_eq]
    intro x hx h1
    exact h x hx h1
  unfold claimReview
  rw [if_neg (by rw [hany]; exact Bool.false_ne_true)]

theorem claimReview_wins (s : Store) (rid now : Nat) (r : Review)
    (hfind : findReview s.reviews rid = some r)
    (hq : r.status = ReviewStatus.queued) :
    (claimReview s rid now).1 = true ∧
    findReview (claimReview s rid now).2.reviews rid
      = some { r with status := .running, started_at := some now } ∧
    ∀ x ∈ (claimReview s rid now).2.reviews,
      ¬(x.id = rid ∧ x.status = ReviewStatus.queued) := by
  have hmem : r ∈ s.reviews := List.mem_of_find?_eq_some hfind
  have hrid : r.id = rid := by
    simpa [findReview] using List.find?_some hfind
  have hany : s.reviews.any
      (fun x => decide (x.id = rid ∧ x.status = ReviewStatus.queued)) = true := by
    rw [List.any_eq_true]
    exact ⟨r, hmem, by simp [hrid, hq]⟩
  have hcr : claimReview s rid now =
      (true, { s with reviews := s.reviews.map (fun x =>
        if x.id = rid ∧ x.status = ReviewStatus.queued then
          { x with status := .running, started_at := some now }
        else x) }) := by
    unfold claimReview
    rw [if_pos hany]
  have hidp : ∀ x : Review,
      (if x.id = rid ∧ x.status = ReviewStatus.queued then
        { x with status := ReviewStatus.running, started_at := some now }
      else x).id = x.id := by
    intro x
    by_cases hc : x.id = rid ∧ x.status = ReviewStatus.queued
    · rw [if_pos hc]
    · rw [if_neg hc]
  refine ⟨by rw [hcr], ?_, ?_⟩
  · rw [hcr]
    rw [find?_map_id_preserving _ hidp, hfind]
    show some (if r.id = rid ∧ r.status = ReviewStatus.queued then
      { r with status := ReviewStatus.running, started_at := some now }
    else r) = _
    rw [if_pos ⟨hrid, hq⟩]
  · intro x hx
    rw [hcr] at hx
    rcases List.mem_map.mp hx with ⟨y, -, rfl⟩
    by_cases hc : y.id = rid ∧ y.status = ReviewStatus.queued
    · rw [if_pos hc]
      rintro ⟨-, hst⟩
      simp at hst
    · rw [if_neg hc]
      exact hc

theorem runClaims_allFail (rid : Nat) (ts : List Nat) (s : Store)
    (h : ∀ x ∈ s.reviews, ¬(x.id = rid ∧ x.status = ReviewStatus.queued)) :
    runClaims rid ts s = (List.replicate ts.length false, s) := by
  induction ts with
  | nil => rfl
  | cons t ts ih =>
    simp [runClaims, claimReview_noClaimable s rid t h, ih, List.replicate_succ]

/-- C5: when a review row with the given id sits in `queued`, any sequence
of serialized claim attempts (the store's atomic conditional update) lets
exactly the first claimer win — the outcome list is `true` followed by
`false` for every other claimer — and the row ends in `running` with
`started_at` recorded from the winner. -/
theorem claim_exclusive (s : Store) (rid : Nat) (t : Nat) (ts : List Nat)
    (r : Review) (hfind : findReview s.reviews rid = some r)
    (hq : r.status = ReviewStatus.queued) :
    (runClaims rid (t :: ts) s).1 = true :: List.replicate ts.length false ∧
    findReview (runClaims rid (t :: ts) s).2.reviews rid
      = some { r with status := .running, started_at := some t } := by
  obtain ⟨h1, h2, h3⟩ := claimReview_wins s rid t r hfind hq
  have hall := runClaims_allFail rid ts (claimReview s rid t).2 h3
  constructor
  · simp [runClaims, hall, h1]
  · simp [runClaims, hall, h2]

/-- Witness for C5: two workers race for the queued review `1`; the first
(at time 10) wins, the second (at time 20) gets the conflict signal, and the
row ends `running` with `started_at = 10`. -/
theorem claim_exclusive_witness :
    (runClaims 1 [10, 20] demoStoreQueued).1 = true :: List.replicate 1 false ∧
    findReview (runClaims 1 [10, 20] demoStoreQueued).2.reviews 1
      = some { (⟨1, 1, .queued, none, none⟩ : Review) with
                 status := .running, started_at := some 10 } :=
  claim_exclusive demoStoreQueued 1 10 [20] ⟨1, 1, .queued, none, none⟩ rfl rfl

theorem reviews_frame (s2 s : Store) (h : s2.reviews = s.reviews) :
    ∃ (newRows : List Review) (f : Review → Review),
      s2.reviews = newRows ++ s.reviews.map f ∧
      (∀ r ∈ newRows, r.status = .queued ∧ r.started_at = none ∧
        r.finished_at = none) ∧
      (∀ r, (f r).id = r.id ∧ (f r).event_id = r.event_id ∧
        legalStep r.status (f r).status) ∧
      (∀ r, r.status.terminal = true → f r = r) :=
  ⟨[], id, by simpa using h, by simp, fun _ => ⟨rfl, rfl, Or.inl rfl⟩,
    fun _ _ => rfl⟩

/-- C4: across every operation of the system, review rows only make legal
moves — each surviving row keeps its id and event, and its status either
stays put, goes `queued → running`, or goes `running → done | failed`; a row
already terminal is left byte-for-byte unchanged; and every row an operation
adds (initial Review at ingestion, manual re-run) starts out as a fresh
`queued` row. -/
theorem review_state_machine_legal (op : Op) (s : Store) :
    ∃ (newRows : List Review) (f : Review → Review),
      (applyOp op s).reviews = newRows ++ s.reviews.map f ∧
      (∀ r ∈ newRows, r.status = .queued ∧ r.started_at = none ∧
        r.finished_at = none) ∧
      (∀ r, (f r).id = r.id ∧ (f r).event_id = r.event_id ∧
        legalStep r.status (f r).status) ∧
      (∀ r, r.status.terminal = true → f r = r) := by
  cases op with
  | ingest mac repos cred did etype body sig =>
    rcases hres : resolveByCredential repos cred with _ | repo
    · exact reviews_frame _ s (by simp [applyOp, processWebhook, hres])
    · by_cases hact : repo.active = true
      · by_cases hsig : ctEq sig (mac repo.webhook_credential body) = true
        · rcases hfound : findEvent s.events repo.id did with _ | e
          · refine ⟨[(⟨s.nextReviewId, s.nextEventId, .queued, none, none⟩ :
                Review)], id, ?_, ?_, fun _ => ⟨rfl, rfl, Or.inl rfl⟩,
                fun _ _ => rfl⟩
            · simp [applyOp, processWebhook, hres, hact, hsig, hfound,
                List.map_id]
            · intro r hr
              simp only [List.mem_singleton] at hr
              subst hr
              exact ⟨rfl, rfl, rfl⟩
          · exact reviews_frame _ s
              (by simp [applyOp, processWebhook, hres, hact, hsig, hfound])
        · exact reviews_frame _ s
            (by simp [applyOp, processWebhook, hres, hact, hsig])
      · exact reviews_frame _ s (by simp [applyOp, processWebhook, hres, hact])
  | claimOp rid now =>
    by_cases hany : s.reviews.any
        (fun x => decide (x.id = rid ∧ x.status = ReviewStatus.queued)) = true
    · refine ⟨[], fun x =>
        if x.id = rid ∧ x.status = ReviewStatus.queued then
          { x with status := .running, started_at := some now }
        else x, ?_, by simp, ?_, ?_⟩
      · show (claimReview s rid now).2.reviews = _
        unfold claimReview
        rw [if_pos hany]
        simp
      · intro r
        dsimp only
        by_cases hc : r.id = rid ∧ r.status = ReviewStatus.queued
        · rw [if_pos hc]
          exact ⟨rfl, rfl, Or.inr (Or.inl ⟨hc.2, rfl⟩)⟩
        · rw [if_neg hc]
          exact ⟨rfl, rfl, Or.inl rfl⟩
      · intro r ht
        dsimp only
        have hnc : ¬(r.id = rid ∧ r.status = ReviewStatus.queued) := by
          rintro ⟨-, hq⟩
          rw [hq] at ht
          simp [ReviewStatus.terminal] at ht
        rw [if_neg hnc]
    · exact reviews_frame _ s (by
        show (claimReview s rid now).2.reviews = s.reviews
        unfold claimReview
        rw [if_neg hany])
  | finalizeOp rid ok now =>
    refine ⟨[], fun x =>
      if x.id = rid ∧ x.status = ReviewStatus.running then
        { x with status := if ok then .done else .failed,
                 finished_at := some now }
      else x, ?_, by simp, ?_, ?_⟩
    · show (finalizeReview s rid ok now).reviews = _
      unfold finalizeReview
      simp
    · intro r
      dsimp only
      by_cases hc : r.id = rid ∧ r.status = ReviewStatus.running
      · rw [if_pos hc]
        refine ⟨rfl, rfl, Or.inr (Or.inr ⟨hc.2, ?_⟩)⟩
        cases ok
        · exact Or.inr rfl
        · exact Or.inl rfl
      · rw [if_neg hc]
        exact ⟨rfl, rfl, Or.inl rfl⟩
    · intro r ht
      dsimp only
      have hnc : ¬(r.id = rid ∧ r.status = ReviewStatus.running) := by
        rintro ⟨-, hq⟩
        rw [hq] at ht
        simp [ReviewStatus.terminal] at ht
      rw [if_neg hnc]
  | manualOp tenant eid =>
    rcases hf : s.events.find? (fun e => e.id == eid) with _ | e
    · exact reviews_frame _ s (by simp [applyOp, enqueueManualReview, hf])
    · by_cases ht : e.tenant_id = tenant
      · refine ⟨[(⟨s.nextReviewId, eid, .queued, none, none⟩ : Review)], id,
            ?_, ?_, fun _ => ⟨rfl, rfl, Or.inl rfl⟩, fun _ _ => rfl⟩
        · simp [applyOp, enqueueManualReview, hf, ht, List.map_id]
        · intro r hr
          simp only [List.mem_singleton] at hr
          subst hr
          exact ⟨rfl, rfl, rfl⟩
      · exact reviews_frame _ s
          (by simp [applyOp, enqueueManualReview, hf, ht])

theorem processWebhook_fresh (mac : List Nat → List Nat → List Nat)
    (repos : List Repository) (cred : List Nat) (did etype : String)
    (body sig : List Nat) (s : Store) (repo : Repository)
    (hres : resolveByCredential repos cred = some repo)
    (hact : repo.active = true)
    (hsig : sig = mac repo.webhook_credential body)
    (hnew : findEvent s.events repo.id did = none) :
    processWebhook mac repos cred did etype body sig s =
      (.accepted s.nextEventId,
        ⟨(⟨s.nextEventId, repo.tenant_id, repo.id, did, etype⟩ : Event) :: s.events,
         (⟨s.nextReviewId, s.nextEventId, .queued, none, none⟩ : Review) :: s.reviews,
         s.findings, s.queue ++ [s.nextReviewId],
         s.nextEventId + 1, s.nextReviewId + 1⟩) := by
  have hct : ctEq sig (mac repo.webhook_credential body) = true :=
    (ctEq_eq_true_iff _ _).mpr hsig
  simp [processWebhook, hres, hact, hct, hnew]

theorem processWebhook_replay (mac : List Nat → List Nat → List Nat)
    (repos : List Repository) (cred : List Nat) (did etype : String)
    (body sig : List Nat) (s : Store) (repo : Repository) (e : Event)
    (hres : resolveByCredential repos cred = some repo)
    (hact : repo.active = true)
    (hsig : sig = mac repo.webhook_credential body)
    (hfound : findEvent s.events repo.id did = some e) :
    processWebhook mac repos cred did etype body sig s = (.accepted e.id, s) := by
  have hct : ctEq sig (mac repo.webhook_credential body) = true :=
    (ctEq_eq_true_iff _ _).mpr hsig
  simp [processWebhook, hres, hact, hct, hfound]

/-- C1: a first-time delivery with a resolvable active repository and a
valid signature is accepted with the fresh event id; submitting the same
delivery any number n ≥ 1 of times leaves the store exactly as after the
first submission, which holds exactly one Event for
`(repository_id, delivery_id)`, exactly one (initial, `queued`) Review for
that Event, and exactly one newly enqueued job; every replay returns the
existing Event's id and changes nothing. -/
theorem webhook_ingestion_idempotent (mac : List Nat → List Nat → List Nat)
    (repos : List Repository) (cred : List Nat) (did etype : String)
    (body sig : List Nat) (s : Store) (repo : Repository) (n : Nat)
    (hres : resolveByCredential repos cred = some repo)
    (hact : repo.active = true)
    (hsig : sig = mac repo.webhook_credential body)
    (hnew : findEvent s.events repo.id did = none)
    (hwf : s.wf) (hn : 1 ≤ n) :
    (processWebhook mac repos cred did etype body sig s).1
      = .accepted s.nextEventId ∧
    submitN mac repos cred did etype body sig n s
      = (processWebhook mac repos cred did etype body sig s).2 ∧
    countEvents (processWebhook mac repos cred did etype body sig s).2
      repo.id did = 1 ∧
    countReviewsFor (processWebhook mac repos cred did etype body sig s).2
      s.nextEventId = 1 ∧
    (processWebhook mac repos cred did etype body sig s).2.queue
      = s.queue ++ [s.nextReviewId] ∧
    processWebhook mac repos cred did etype body sig
        (processWebhook mac repos cred did etype body sig s).2
      = (.accepted s.nextEventId,
         (processWebhook mac repos cred did etype body sig s).2) := by
  have hfresh := processWebhook_fresh mac repos cred did etype body sig s repo
    hres hact hsig hnew
  have h2 : (processWebhook mac repos cred did etype body sig s).2 =
      ⟨(⟨s.nextEventId, repo.tenant_id, repo.id, did, etype⟩ : Event) :: s.events,
       (⟨s.nextReviewId, s.nextEventId, .queued, none, none⟩ : Review) :: s.reviews,
       s.findings, s.queue ++ [s.nextReviewId],
       s.nextEventId + 1, s.nextReviewId + 1⟩ := by
    rw [hfresh]
  have hfound1 : findEvent
      (processWebhook mac repos cred did etype body sig s).2.events repo.id did
      = some (⟨s.nextEventId, repo.tenant_id, repo.id, did, etype⟩ : Event) := by
    rw [h2]
    simp [findEvent]
  have hreplay := processWebhook_replay mac repos cred did etype body sig
    (processWebhook mac repos cred did etype body sig s).2 repo
    (⟨s.nextEventId, repo.tenant_id, repo.id, did, etype⟩ : Event)
    hres hact hsig hfound1
  have hstay : ∀ k, submitN mac repos cred did etype body sig k
      (processWebhook mac repos cred did etype body sig s).2
      = (processWebhook mac repos cred did etype body sig s).2 := by
    intro k
    induction k with
    | zero => rfl
    | succ m ih =>
      have hsnd : (processWebhook mac repos cred did etype body sig
          (processWebhook mac repos cred did etype body sig s).2).2
          = (processWebhook mac repos cred did etype body sig s).2 := by
        rw [hreplay]
      show submitN mac repos cred did etype body sig m
        (processWebhook mac repos cred did etype body sig
          (processWebhook mac repos cred did etype body sig s).2).2 = _
      rw [hsnd, ih]
  refine ⟨by rw [hfresh], ?_, ?_, ?_, by rw [h2], hreplay⟩
  · rcases n with _ | m
    · omega
    · show submitN mac repos cred did etype body sig m
        (processWebhook mac repos cred did etype body sig s).2 = _
      exact hstay m
  · rw [h2]
    have hnew' : s.events.find?
        (fun e => e.repository_id == repo.id && e.delivery_id == did) = none := hnew
    have hnil : s.events.filter
        (fun e => e.repository_id == repo.id && e.delivery_id == did) = [] :=
      List.filter_eq_nil_iff.mpr (List.find?_eq_none.mp hnew')
    simp [countEvents, hnil]
  · rw [h2]
    have hnil2 : s.reviews.filter (fun r => r.event_id == s.nextEventId) = [] := by
      refine List.filter_eq_nil_iff.mpr ?_
      intro r hr
      have hlt := (hwf.2 r hr).2
      simp only [beq_iff_eq]
      omega
    simp [countReviewsFor, hnil2]

/-- Witness for C1: tenant 7's repository receives push delivery `d1` three
times; one Event, one queued Review and one job result, and the replay is a
recognized no-op. -/
theorem webhook_ingestion_idempotent_witness :
    (processWebhook demoMac [demoRepo] [1, 2] "d1" "push" [3] [1, 2, 3]
        demoStore).1 = .accepted demoStore.nextEventId ∧
    submitN demoMac [demoRepo] [1, 2] "d1" "push" [3] [1, 2, 3] 3 demoStore
      = (processWebhook demoMac [demoRepo] [1, 2] "d1" "push" [3] [1, 2, 3]
          demoStore).2 ∧
    countEvents (processWebhook demoMac [demoRepo] [1, 2] "d1" "push" [3]
        [1, 2, 3] demoStore).2 demoRepo.id "d1" = 1 ∧
    countReviewsFor (processWebhook demoMac [demoRepo] [1, 2] "d1" "push" [3]
        [1, 2, 3] demoStore).2 demoStore.nextEventId = 1 ∧
    (processWebhook demoMac [demoRepo] [1, 2] "d1" "push" [3] [1, 2, 3]
        demoStore).2.queue = demoStore.queue ++ [demoStore.nextReviewId] ∧
    processWebhook demoMac [demoRepo] [1, 2] "d1" "push" [3] [1, 2, 3]
        (processWebhook demoMac [demoRepo] [1, 2] "d1" "push" [3] [1, 2, 3]
          demoStore).2
      = (.accepted demoStore.nextEventId,
         (processWebhook demoMac [demoRepo] [1, 2] "d1" "push" [3] [1, 2, 3]
           demoStore).2) :=
  webhook_ingestion_idempotent demoMac [demoRepo] [1, 2] "d1" "push" [3]
    [1, 2, 3] demoStore demoRepo 3 rfl rfl rfl rfl
    (by simp [Store.wf, demoStore]) (by omega)

end CodeSense
